import Mathlib

/-!
Verification of the traversal kernel of the Coin scene-graph library
(`src/actions/SoAction.cpp`).  The kernel's observable fields and the
operations the claims are about are shallowly embedded below.  The action's
traversal hooks (`beginTraversal`, `endTraversal`, `traverse`) are virtual
methods that may mutate the action arbitrarily; they are modelled as
arbitrary state transformers of type `Trav`.  Calls into user traversal code
are additionally recorded in a ghost trace (`Call`) so that theorems can
speak about which traversals were started and with which kernel state; the
trace has no influence on the state component.

`SoPath`, `SoTempPath` and `SoPathList` are used by `SoAction.cpp` but their
implementation files are not part of the sources at hand; their operations
are modelled from the spec (sections 3, 4.6 and 4.7), as noted on each
definition.  Null pointers are modelled with `Option`; an operation whose
C++ original dereferences a possibly null pointer returns `Option` and
yields `none` where the original would have undefined behaviour.
-/

/-- A scene-graph node.  Only its identity matters to the kernel. -/
structure SoNode where
  id : Nat
deriving DecidableEq

/-- `SoAction::AppliedCode`: what the action was applied to. -/
inductive AppliedCode where
  | NODE
  | PATH
  | PATH_LIST
deriving DecidableEq

/-- `SoAction::PathCode`: where traversal stands relative to the applied
path(s). -/
inductive PathCode where
  | NO_PATH
  | IN_PATH
  | BELOW_PATH
  | OFF_PATH
deriving DecidableEq

/-- Modelled from the spec (section 4.6): a path is a head node plus a
sequence of steps; the resolved node of a step may be unknown (`none`) when
the kernel appended only a child index (`SoPath::append(int)` resolves the
node from the graph, which is not part of the model). -/
structure SoPath where
  head : Option SoNode
  steps : List (Option SoNode × Int)
deriving DecidableEq

/-- Modelled from the spec: `length` counts the head as step 0. -/
def SoPath.getFullLength (p : SoPath) : Nat :=
  (if p.head.isSome then 1 else 0) + p.steps.length

/-- Modelled from the spec: the head node of the path. -/
def SoPath.getHead (p : SoPath) : Option SoNode :=
  p.head

/-- Modelled from the spec: resolved node at step `i`; `getNode 0` is the
head. -/
def SoPath.getNode (p : SoPath) (i : Nat) : Option SoNode :=
  if i = 0 then p.head else (p.steps[i-1]?).bind (fun st => st.1)

/-- Modelled from the spec: child index at step `i`, undefined for `i = 0`
and out-of-range `i` (the model returns 0 there). -/
def SoPath.getIndex (p : SoPath) (i : Nat) : Int :=
  if i = 0 then 0 else ((p.steps[i-1]?).map (fun st => st.2)).getD 0

/-- Modelled from the spec: append a step at the tail. -/
def SoPath.append (p : SoPath) (node : Option SoNode) (childindex : Int) : SoPath :=
  { p with steps := p.steps ++ [(node, childindex)] }

/-- Modelled from the spec: `setHead` sets the head and truncates. -/
def SoPath.setHead (node : Option SoNode) : SoPath :=
  ⟨node, []⟩

/-- Modelled from the spec: truncate the path to `len` steps. -/
def SoPath.truncate (p : SoPath) (len : Nat) : SoPath :=
  if len = 0 then ⟨none, []⟩ else { p with steps := p.steps.take (len - 1) }

/-- The step sequence of a path as bare child indices. -/
def SoPath.indices (p : SoPath) : List Int :=
  p.steps.map (fun st => st.2)

/-- Whether `xs` is an initial segment of `ys` (pairwise equal). -/
def initSeg : List (Option SoNode × Int) → List (Option SoNode × Int) → Bool
  | [], _ => true
  | _ :: _, [] => false
  | a :: as, b :: bs => if a = b then initSeg as bs else false

/-- Modelled from the spec (section 4.6): `containsPath(other)` is true iff
`other` is a prefix of `this` in terms of (node, child-index) pairs starting
at the head. -/
def SoPath.containsPath (p other : SoPath) : Bool :=
  decide (p.head = other.head) && initSeg other.steps p.steps

/-- Key for the stable head identity used by the path ordering (spec
section 4.6: pointer or registered id). -/
def headKey : Option SoNode → Nat
  | none => 0
  | some n => n.id + 1

/-- Lexicographic comparison of child-index sequences, a prefix ordering
before its extensions. -/
def intListLe : List Int → List Int → Bool
  | [], _ => true
  | _ :: _, [] => false
  | a :: as, b :: bs => if a < b then true else if b < a then false else intListLe as bs

/-- Modelled from the spec (section 4.6): path ordering, lexicographic on
(head identity, then child indices). -/
def pathLe (p q : SoPath) : Bool :=
  if headKey p.getHead < headKey q.getHead then true
  else if headKey q.getHead < headKey p.getHead then false
  else intListLe p.indices q.indices

/-- Insertion step of the sort. -/
def insertPath (p : SoPath) : List SoPath → List SoPath
  | [] => [p]
  | q :: rest => if pathLe p q then p :: q :: rest else q :: insertPath p rest

/-- Modelled from the spec (section 4.7): `SoPathList::sort` sorts by the
path ordering. -/
def sortPaths : List SoPath → List SoPath
  | [] => []
  | p :: rest => insertPath p (sortPaths rest)

/-- Scan of `uniquify`: drop every path that is a duplicate or a
continuation of the previously kept path `prev`. -/
def uniquifyScan (prev : SoPath) : List SoPath → List SoPath
  | [] => []
  | q :: rest =>
    if q.containsPath prev then uniquifyScan prev rest
    else q :: uniquifyScan q rest

/-- Modelled from the spec (sections 3, 4.7 and scenario S4):
`SoPathList::uniquify` on a sorted list keeps the first path of each prefix
family and removes duplicates and continuations of the previously kept
path, so that afterwards no path is a prefix of another. -/
def uniquify : List SoPath → List SoPath
  | [] => []
  | p :: rest => p :: uniquifyScan p rest

/-- The applied-data union of `SoAction`.  The C++ original is an untagged
union; the model is a tagged variant (reads of a member other than the last
written one are undefined in C++ and never arise in well-formed use). -/
inductive AppliedData where
  | node (n : Option SoNode)
  | path (p : Option SoPath)
  | pathlist (pathlist : List SoPath) (origpathlist : List SoPath)
deriving DecidableEq

/-- The observable traversal-kernel fields of an `SoAction` instance. -/
structure SoAction where
  appliedcode : AppliedCode
  applieddata : AppliedData
  currentpath : SoPath
  terminated : Bool
  currentpathcode : PathCode
deriving DecidableEq

/-- A traversal hook (`beginTraversal`, `endTraversal` or `traverse`):
user/virtual code that receives the node argument and may transform the
action state arbitrarily. -/
abbrev Trav := SoAction → Option SoNode → SoAction

/-- Ghost trace entry: one traversal started by the kernel, recording the
node handed to the hook and the kernel state at that moment. -/
structure Call where
  node : Option SoNode
  state : SoAction
deriving DecidableEq

/-- `SoAction::getWhatAppliedTo`. -/
def SoAction.getWhatAppliedTo (s : SoAction) : AppliedCode :=
  s.appliedcode

/-- `SoAction::getNodeAppliedTo`. -/
def SoAction.getNodeAppliedTo (s : SoAction) : Option SoNode :=
  if s.appliedcode = .NODE then
    match s.applieddata with
    | .node n => n
    | _ => none
  else none

/-- `SoAction::getPathAppliedTo`. -/
def SoAction.getPathAppliedTo (s : SoAction) : Option SoPath :=
  if s.appliedcode = .PATH then
    match s.applieddata with
    | .path p => p
    | _ => none
  else none

/-- `SoAction::getPathListAppliedTo`. -/
def SoAction.getPathListAppliedTo (s : SoAction) : Option (List SoPath) :=
  if s.appliedcode = .PATH_LIST then
    match s.applieddata with
    | .pathlist pl _ => some pl
    | _ => none
  else none

/-- `SoAction::getOriginalPathListAppliedTo`. -/
def SoAction.getOriginalPathListAppliedTo (s : SoAction) : Option (List SoPath) :=
  if s.appliedcode = .PATH_LIST then
    match s.applieddata with
    | .pathlist _ opl => some opl
    | _ => none
  else none

/-- `SoAction::hasTerminated`. -/
def SoAction.hasTerminated (s : SoAction) : Bool :=
  s.terminated

/-- `SoAction::setTerminated`. -/
def SoAction.setTerminated (s : SoAction) (flag : Bool) : SoAction :=
  { s with terminated := flag }

/-- `SoAction::getCurPath`. -/
def SoAction.getCurPath (s : SoAction) : SoPath :=
  s.currentpath

/-- `SoAction::getCurPathCode`. -/
def SoAction.getCurPathCode (s : SoAction) : PathCode :=
  s.currentpathcode

/-- The loop of the pathlist branch of `SoAction::pushCurPath(int,SoNode*)`
(SoAction.cpp lines 631-642): the first path that is at least `curlen` long
and contains the current path. -/
def findContainingLoop : List SoPath → Nat → SoPath → Option SoPath
  | [], _, _ => none
  | q :: rest, curlen, cp =>
    if curlen ≤ q.getFullLength ∧ q.containsPath cp then some q
    else findContainingLoop rest curlen cp

/-- `SoAction::pushCurPath(const int, SoNode *)` (SoAction.cpp lines
594-660).  `none` models the undefined behaviour of reading the applied-data
union against its tag or dereferencing a null applied path. -/
def SoAction.pushCurPath (s : SoAction) (childindex : Int) (node : Option SoNode) :
    Option SoAction :=
  let cp := s.currentpath.append node childindex
  let curlen := cp.getFullLength
  if s.currentpathcode = .IN_PATH then
    if s.appliedcode = .PATH then
      match s.applieddata with
      | .path (some p) =>
        some { s with
          currentpath := cp,
          currentpathcode :=
            if cp.getIndex (curlen - 1) ≠ p.getIndex (curlen - 1) then .OFF_PATH
            else if curlen = p.getFullLength then .BELOW_PATH
            else s.currentpathcode }
      | _ => none
    else
      match s.applieddata with
      | .pathlist pl _ =>
        some { s with
          currentpath := cp,
          currentpathcode :=
            match findContainingLoop pl curlen cp with
            | none => .OFF_PATH
            | some q => if q.getFullLength = curlen then .BELOW_PATH else s.currentpathcode }
      | _ => none
  else some { s with currentpath := cp }

/-- The collection loop of `SoAction::usePathCode` for the pathlist case
(SoAction.cpp lines 733-743), with `previdx` threading the last appended
index. -/
def collectLoop : List SoPath → Nat → SoPath → Int → List Int
  | [], _, _, _ => []
  | q :: rest, curlen, cp, previdx =>
    if curlen < q.getFullLength ∧ q.containsPath cp then
      let idx := q.getIndex curlen
      if idx ≠ previdx then idx :: collectLoop rest curlen cp idx
      else collectLoop rest curlen cp previdx
    else collectLoop rest curlen cp previdx

/-- `SoAction::usePathCode` (SoAction.cpp lines 714-752): the index list
written into the per-depth scratch buffer.  `none` models undefined
behaviour (union misread or null applied path). -/
def SoAction.usePathCode (s : SoAction) : Option (List Int) :=
  let curlen := s.currentpath.getFullLength
  if s.appliedcode = .PATH_LIST then
    match s.applieddata with
    | .pathlist pl _ => some (collectLoop pl curlen s.currentpath (-1))
    | _ => none
  else
    match s.applieddata with
    | .path (some p) => some [p.getIndex curlen]
    | _ => none

/-- `SoAction::getPathCode` (SoAction.cpp lines 568-574).  The second
component is the index-list output: `none` when the output arguments are
left untouched. -/
def SoAction.getPathCode (s : SoAction) : Option (PathCode × Option (List Int)) :=
  if s.currentpathcode = .IN_PATH then
    match s.usePathCode with
    | some l => some (s.currentpathcode, some l)
    | none => none
  else some (s.currentpathcode, none)

/-- The seeding of `currentpathcode` used by the apply overloads:
`IN_PATH` when the path has full length greater than 1, else `BELOW_PATH`. -/
def seedCode (p : SoPath) : PathCode :=
  if 1 < p.getFullLength then .IN_PATH else .BELOW_PATH

/-- `SoAction::apply(SoNode *)` (SoAction.cpp lines 279-318), instrumented
with the ghost trace of started traversals. -/
def SoAction.applyNode (beginT endT : Trav) (s : SoAction) (root : Option SoNode) :
    SoAction × List Call :=
  let storedcode := s.appliedcode
  let storedcurr := s.currentpathcode
  let storeddata := s.applieddata
  let s1 : SoAction :=
    { s with terminated := false, currentpathcode := .NO_PATH,
             applieddata := .node root, appliedcode := .NODE }
  let res :=
    match root with
    | some r =>
      let s2 := { s1 with currentpath := SoPath.setHead (some r) }
      let s3 := endT (beginT s2 (some r)) (some r)
      (({ s3 with applieddata := .node none } : SoAction), [(⟨some r, s2⟩ : Call)])
    | none => (s1, [])
  ({ res.1 with appliedcode := storedcode, currentpathcode := storedcurr,
                applieddata := storeddata }, res.2)

/-- `SoAction::apply(SoPath *)` (SoAction.cpp lines 323-367), instrumented
with the ghost trace.  A null path is dereferenced unconditionally by the
original (`path->ref()`, `path->getFullLength()`), modelled as `none`.
`SoPath::getLength` is modelled as the full length (the model has no node
kits that would make them differ). -/
def SoAction.applyPath (beginT endT : Trav) (s : SoAction) (path : Option SoPath) :
    Option (SoAction × List Call) :=
  match path with
  | none => none
  | some p =>
    let storedcode := s.appliedcode
    let storedcurr := s.currentpathcode
    let storeddata := s.applieddata
    let s1 : SoAction :=
      { s with terminated := false, currentpathcode := seedCode p,
               applieddata := .path (some p), appliedcode := .PATH }
    let res :=
      if 0 < p.getFullLength ∧ (p.getNode 0).isSome then
        let nd := p.getNode 0
        let s2 := { s1 with currentpath := SoPath.setHead nd }
        (endT (beginT s2 nd) nd, [(⟨nd, s2⟩ : Call)])
      else (s1, [])
    some ({ res.1 with appliedcode := storedcode, currentpathcode := storedcurr,
                       applieddata := storeddata }, res.2)

/-- The per-head-group loop of `SoAction::apply(const SoPathList &, SbBool)`
(SoAction.cpp lines 428-450): collect the maximal run of paths sharing the
current head, configure the kernel, start one traversal, continue with the
remainder unless terminated.  `orig` is the original applied list (the
`origpathlist` member is never reassigned by the loop). -/
def SoAction.multiHeadLoopGo (beginT : Trav) (orig : List SoPath) :
    Nat → SoAction → List SoPath → SoAction × List Call
  | _, s, [] => (s, [])
  | 0, s, _ :: _ => (s, [])
  | bound + 1, s, p :: rest =>
    if s.terminated then (s, [])
    else
      let grp := p :: rest.takeWhile (fun q => decide (q.getHead = p.getHead))
      let rest2 := rest.dropWhile (fun q => decide (q.getHead = p.getHead))
      let s1 : SoAction :=
        { s with applieddata := .pathlist grp orig,
                 appliedcode := .PATH_LIST,
                 currentpathcode := seedCode p,
                 currentpath := SoPath.setHead p.getHead }
      let s2 := beginT s1 p.getHead
      let res := SoAction.multiHeadLoopGo beginT orig bound s2 rest2
      (res.1, (⟨p.getHead, s1⟩ : Call) :: res.2)

/-- The per-head-group loop, entered with enough iteration budget: every
round consumes at least one path, so `l.length` rounds always suffice (the
explicit bound only makes the recursion structural). -/
def SoAction.multiHeadLoop (beginT : Trav) (orig : List SoPath) (s : SoAction)
    (l : List SoPath) : SoAction × List Call :=
  SoAction.multiHeadLoopGo beginT orig l.length s l

/-- `SoAction::apply(const SoPathList &, SbBool)` (SoAction.cpp lines
380-455), instrumented with the ghost trace.  An empty list returns before
any field is touched (line 388). -/
def SoAction.applyPathList (beginT endT : Trav) (s : SoAction)
    (pathlist : List SoPath) (obeysrules : Bool) : SoAction × List Call :=
  match pathlist with
  | [] => (s, [])
  | p0 :: _ =>
    let storedcode := s.appliedcode
    let storedcurr := s.currentpathcode
    let storeddata := s.applieddata
    let s1 : SoAction :=
      { s with terminated := false,
               applieddata := .pathlist pathlist pathlist,
               appliedcode := .PATH_LIST,
               currentpathcode := seedCode p0 }
    let res :=
      if obeysrules then
        let s2 := { s1 with currentpath := SoPath.setHead p0.getHead }
        (endT (beginT s2 p0.getHead) p0.getHead, [(⟨p0.getHead, s2⟩ : Call)])
      else
        let sortedlist := uniquify (sortPaths pathlist)
        match sortedlist with
        | [] => (s1, [])
        | q0 :: qs =>
          if q0.getHead = (qs.getLastD q0).getHead then
            let s2 := { s1 with currentpath := SoPath.setHead q0.getHead,
                                applieddata := .pathlist (q0 :: qs) pathlist }
            (endT (beginT s2 q0.getHead) q0.getHead, [(⟨q0.getHead, s2⟩ : Call)])
          else
            SoAction.multiHeadLoop beginT pathlist s1 (q0 :: qs)
    ({ res.1 with appliedcode := storedcode, currentpathcode := storedcurr,
                  applieddata := storeddata }, res.2)

/-- `SoAction::switchToPathTraversal` (SoAction.cpp lines 886-907): save
the four fields, configure for the path, traverse its head, restore. -/
def SoAction.switchToPathTraversal (traverse : Trav) (s : SoAction) (path : SoPath) :
    SoAction :=
  let storeddata := s.applieddata
  let storedcode := s.appliedcode
  let storedpathcode := s.currentpathcode
  let storedpath := s.currentpath
  let s1 : SoAction :=
    { s with appliedcode := .PATH, applieddata := .path (some path),
             currentpathcode := .IN_PATH }
  let s2 := traverse s1 (path.getNode 0)
  { s2 with currentpath := storedpath, currentpathcode := storedpathcode,
            applieddata := storeddata, appliedcode := storedcode }

/-- `SoAction::switchToNodeTraversal` (SoAction.cpp lines 913-934): save
the four fields, configure for the node (truncating the current path),
traverse it, restore. -/
def SoAction.switchToNodeTraversal (traverse : Trav) (s : SoAction) (node : Option SoNode) :
    SoAction :=
  let storeddata := s.applieddata
  let storedcode := s.appliedcode
  let storedpathcode := s.currentpathcode
  let storedpath := s.currentpath
  let s1 : SoAction :=
    { s with appliedcode := .NODE, applieddata := .node node,
             currentpathcode := .NO_PATH,
             currentpath := s.currentpath.truncate 0 }
  let s2 := traverse s1 node
  { s2 with currentpath := storedpath, currentpathcode := storedpathcode,
            applieddata := storeddata, appliedcode := storedcode }

/-- Descend a sequence of child steps through `pushCurPath`. -/
def followPath (s : SoAction) : List (Option SoNode × Int) → Option SoAction
  | [] => some s
  | (n, i) :: rest => (s.pushCurPath i n).bind (fun s' => followPath s' rest)

/-- Consecutive grouping of a path list by equal heads, with an explicit
iteration budget making the recursion structural. -/
def headGroupsGo : Nat → List SoPath → List (List SoPath)
  | _, [] => []
  | 0, _ :: _ => []
  | bound + 1, p :: rest =>
    (p :: rest.takeWhile (fun q => decide (q.getHead = p.getHead))) ::
      headGroupsGo bound (rest.dropWhile (fun q => decide (q.getHead = p.getHead)))

/-- Consecutive grouping of a path list by equal heads. -/
def headGroups (l : List SoPath) : List (List SoPath) :=
  headGroupsGo l.length l

/-- Modelled from the spec's words (section 4.8.2): run one traversal per
head group, in order, configuring the kernel for the group before each
traversal, and start no further group once the terminated flag is true. -/
def runHeadGroups (beginT : Trav) (orig : List SoPath) (s : SoAction) :
    List (List SoPath) → SoAction × List Call
  | [] => (s, [])
  | g :: gs =>
    if s.terminated then (s, [])
    else
      match g with
      | [] => (s, [])
      | p :: _ =>
        let s1 : SoAction :=
          { s with applieddata := .pathlist g orig,
                   appliedcode := .PATH_LIST,
                   currentpathcode := seedCode p,
                   currentpath := SoPath.setHead p.getHead }
        let s2 := beginT s1 p.getHead
        let res := runHeadGroups beginT orig s2 gs
        (res.1, (⟨p.getHead, s1⟩ : Call) :: res.2)

/-- The child indices at the current depth contributed by the applied path
list: over the paths longer than `curlen` that contain the current path,
in list order. -/
def mappedIndices (pl : List SoPath) (curlen : Nat) (cp : SoPath) : List Int :=
  (pl.filter (fun q => decide (curlen < q.getFullLength ∧ q.containsPath cp))).map
    (fun q => q.getIndex curlen)

/-- Removal of adjacent duplicates given the previously emitted value. -/
def destutterAux : List Int → Int → List Int
  | [], _ => []
  | a :: rest, prev =>
    if a ≠ prev then a :: destutterAux rest a else destutterAux rest prev

/-! ### Concrete fixtures used by witnesses and counterexamples -/

/-- A concrete group/head node. -/
def nG0 : SoNode := ⟨0⟩

/-- A concrete child node. -/
def nA : SoNode := ⟨1⟩

/-- Another concrete child node. -/
def nB : SoNode := ⟨2⟩

/-- The one-node path consisting of just the head `nG0`. -/
def pHead : SoPath := ⟨some nG0, []⟩

/-- The path `nG0 -> nA` (child index 0). -/
def pLong : SoPath := ⟨some nG0, [(some nA, 0)]⟩

/-- A traversal hook that leaves the action untouched. -/
def idTrav : Trav := fun s _ => s

/-- A freshly constructed action state (cf. the `SoAction` constructor). -/
def exAction : SoAction := ⟨.NODE, .node none, ⟨none, []⟩, false, .NO_PATH⟩

/-- An action state whose previous apply terminated early. -/
def exTerm : SoAction := { exAction with terminated := true }

/-- C4: every apply overload leaves the action's applied code, applied data
and current path code unchanged when it returns, whatever the traversal
hooks do, so a nested apply from inside a node method leaves the outer
traversal's fields intact. -/
theorem c4_apply_restores_fields :
    (∀ (bT eT : Trav) (s : SoAction) (root : Option SoNode),
       (SoAction.applyNode bT eT s root).1.appliedcode = s.appliedcode ∧
       (SoAction.applyNode bT eT s root).1.applieddata = s.applieddata ∧
       (SoAction.applyNode bT eT s root).1.currentpathcode = s.currentpathcode) ∧
    (∀ (bT eT : Trav) (s : SoAction) (path : Option SoPath) (r : SoAction × List Call),
       SoAction.applyPath bT eT s path = some r →
       r.1.appliedcode = s.appliedcode ∧
       r.1.applieddata = s.applieddata ∧
       r.1.currentpathcode = s.currentpathcode) ∧
    (∀ (bT eT : Trav) (s : SoAction) (pl : List SoPath) (b : Bool),
       (SoAction.applyPathList bT eT s pl b).1.appliedcode = s.appliedcode ∧
       (SoAction.applyPathList bT eT s pl b).1.applieddata = s.applieddata ∧
       (SoAction.applyPathList bT eT s pl b).1.currentpathcode = s.currentpathcode) := by
  refine ⟨fun bT eT s root => ?_, fun bT eT s path r h => ?_, fun bT eT s pl b => ?_⟩
  · cases root <;> exact ⟨rfl, rfl, rfl⟩
  · cases path with
    | none => simp [SoAction.applyPath] at h
    | some p =>
      simp only [SoAction.applyPath, Option.some.injEq] at h
      subst h
      exact ⟨rfl, rfl, rfl⟩
  · cases pl <;> exact ⟨rfl, rfl, rfl⟩

/-- The result of a concrete apply-to-path, for the C4 witness. -/
def c4res : SoAction × List Call :=
  (SoAction.applyPath idTrav idTrav exAction (some pLong)).getD (exAction, [])

/-- Witness for C4 at a concrete apply-to-path call. -/
theorem c4_witness :
    SoAction.applyPath idTrav idTrav exAction (some pLong) = some c4res ∧
    (c4res.1.appliedcode = exAction.appliedcode ∧
     c4res.1.applieddata = exAction.applieddata ∧
     c4res.1.currentpathcode = exAction.currentpathcode) :=
  ⟨by decide,
   c4_apply_restores_fields.2.1 idTrav idTrav exAction (some pLong) c4res (by decide)⟩

/-- C6 counterexample: applying to a null node is not state-preserving (it
clears the terminated flag), and applying to a null path is a null-pointer
dereference, not a no-op. -/
theorem c6_counterexample :
    (SoAction.applyNode idTrav idTrav exTerm none).1 ≠ exTerm ∧
    (SoAction.applyNode idTrav idTrav exTerm none).1.hasTerminated = false ∧
    exTerm.hasTerminated = true ∧
    SoAction.applyPath idTrav idTrav exAction none = none := by decide

/-- C6 amended: applying to a null node performs no traversal and leaves
the state unchanged except that the terminated flag is cleared; applying to
a null path dereferences the null pointer (undefined behaviour, modelled as
a fault). -/
theorem c6_amended_null_apply :
    ∀ (bT eT : Trav) (s : SoAction),
      SoAction.applyNode bT eT s none = ({ s with terminated := false }, []) ∧
      SoAction.applyPath bT eT s none = none :=
  fun _ _ _ => ⟨rfl, rfl⟩

/-- C9: `switchToPathTraversal` and `switchToNodeTraversal` save the four
fields (applied code, applied data, current path code, current path),
invoke the traversal hook directly on the target's head, and restore all
four saved fields before returning, for every traversal hook. -/
theorem c9_switch_traversals_save_restore :
    ∀ (traverse : Trav) (s : SoAction) (p : SoPath) (n : Option SoNode),
      (SoAction.switchToPathTraversal traverse s p =
        { traverse
            { s with appliedcode := .PATH, applieddata := .path (some p),
                     currentpathcode := .IN_PATH } (p.getNode 0) with
          currentpath := s.currentpath, currentpathcode := s.currentpathcode,
          applieddata := s.applieddata, appliedcode := s.appliedcode }) ∧
      ((SoAction.switchToPathTraversal traverse s p).appliedcode = s.appliedcode ∧
       (SoAction.switchToPathTraversal traverse s p).applieddata = s.applieddata ∧
       (SoAction.switchToPathTraversal traverse s p).currentpathcode = s.currentpathcode ∧
       (SoAction.switchToPathTraversal traverse s p).currentpath = s.currentpath) ∧
      (SoAction.switchToNodeTraversal traverse s n =
        { traverse
            { s with appliedcode := .NODE, applieddata := .node n,
                     currentpathcode := .NO_PATH,
                     currentpath := s.currentpath.truncate 0 } n with
          currentpath := s.currentpath, currentpathcode := s.currentpathcode,
          applieddata := s.applieddata, appliedcode := s.appliedcode }) ∧
      ((SoAction.switchToNodeTraversal traverse s n).appliedcode = s.appliedcode ∧
       (SoAction.switchToNodeTraversal traverse s n).applieddata = s.applieddata ∧
       (SoAction.switchToNodeTraversal traverse s n).currentpathcode = s.currentpathcode ∧
       (SoAction.switchToNodeTraversal traverse s n).currentpath = s.currentpath) :=
  fun _ _ _ _ => ⟨rfl, ⟨rfl, rfl, rfl, rfl⟩, rfl, rfl, rfl, rfl, rfl⟩

/-- C10: the applied-to accessors agree with the applied code in every
state: each returns the stored datum exactly when the applied code matches
its kind, and null otherwise. -/
theorem c10_applied_accessors_agree :
    ∀ (s : SoAction) (n : Option SoNode) (p : Option SoPath) (pl opl : List SoPath),
      (s.getWhatAppliedTo = s.appliedcode) ∧
      (s.applieddata = .node n →
        s.getNodeAppliedTo = if s.appliedcode = .NODE then n else none) ∧
      (s.appliedcode ≠ .NODE → s.getNodeAppliedTo = none) ∧
      (s.applieddata = .path p →
        s.getPathAppliedTo = if s.appliedcode = .PATH then p else none) ∧
      (s.appliedcode ≠ .PATH → s.getPathAppliedTo = none) ∧
      (s.applieddata = .pathlist pl opl →
        s.getPathListAppliedTo = (if s.appliedcode = .PATH_LIST then some pl else none) ∧
        s.getOriginalPathListAppliedTo = (if s.appliedcode = .PATH_LIST then some opl else none)) ∧
      (s.appliedcode ≠ .PATH_LIST →
        s.getPathListAppliedTo = none ∧ s.getOriginalPathListAppliedTo = none) := by
  intro s n p pl opl
  refine ⟨rfl, fun h => ?_, fun h => ?_, fun h => ?_, fun h => ?_, fun h => ?_, fun h => ?_⟩
  · simp [SoAction.getNodeAppliedTo, h]
  · simp [SoAction.getNodeAppliedTo, h]
  · simp [SoAction.getPathAppliedTo, h]
  · simp [SoAction.getPathAppliedTo, h]
  · constructor
    · simp [SoAction.getPathListAppliedTo, h]
    · simp [SoAction.getOriginalPathListAppliedTo, h]
  · constructor
    · simp [SoAction.getPathListAppliedTo, h]
    · simp [SoAction.getOriginalPathListAppliedTo, h]

/-- Witness for C10 at a concrete state. -/
theorem c10_witness :
    (exAction.applieddata = AppliedData.node none) ∧
    (exAction.getNodeAppliedTo =
      if exAction.appliedcode = .NODE then none else none) ∧
    (exAction.appliedcode ≠ .PATH) ∧ (exAction.getPathAppliedTo = none) :=
  ⟨by decide, (c10_applied_accessors_agree exAction none none [] []).2.1 (by decide),
   by decide, (c10_applied_accessors_agree exAction none none [] []).2.2.2.2.1 (by decide)⟩

/-- If the begin-traversal hook never sets the terminated flag, the
per-head-group loop never sets it either. -/
theorem multiHeadLoop_preserves_not_terminated (bT : Trav) (orig : List SoPath)
    (hB : ∀ s n, s.terminated = false → (bT s n).terminated = false) :
    ∀ (l : List SoPath) (s : SoAction), s.terminated = false →
      (SoAction.multiHeadLoop bT orig s l).1.terminated = false := by
  have main : ∀ (bound : Nat) (l : List SoPath) (s : SoAction),
      s.terminated = false →
      (SoAction.multiHeadLoopGo bT orig bound s l).1.terminated = false := by
    intro bound
    induction bound with
    | zero =>
      intro l s hs
      cases l <;> exact hs
    | succ k ih =>
      intro l s hs
      cases l with
      | nil => exact hs
      | cons p rest =>
        rw [SoAction.multiHeadLoopGo]
        simp only [hs, Bool.false_eq_true, if_false]
        exact ih _ _ (hB _ _ rfl)
  exact fun l s hs => main l.length l s hs

/-- C5 counterexample: apply-to-pathlist with an empty list returns before
clearing the terminated flag, so an action whose previous run terminated
still reports `hasTerminated() = TRUE` after the apply, although no action
method ran. -/
theorem c5_counterexample :
    (SoAction.applyPathList idTrav idTrav exTerm [] false).1.hasTerminated = true ∧
    (SoAction.applyPathList idTrav idTrav exTerm [] false).1 = exTerm := by decide

/-- C5 amended: apply-to-node and apply-to-path clear the terminated flag
before traversal, and apply-to-pathlist does so only for a nonempty list
(an empty pathlist returns with the action untouched); hence whenever the
traversal hooks never set the flag, `hasTerminated()` is FALSE after the
apply, except after applying to an empty pathlist, where the flag keeps its
previous value. -/
theorem c5_amended_terminated_cleared :
    ∀ (bT eT : Trav),
      (∀ s n, s.terminated = false → (bT s n).terminated = false) →
      (∀ s n, s.terminated = false → (eT s n).terminated = false) →
      ∀ (s : SoAction) (root : Option SoNode) (p : SoPath) (pl : List SoPath) (b : Bool),
        (SoAction.applyNode bT eT s root).1.hasTerminated = false ∧
        (∀ r, SoAction.applyPath bT eT s (some p) = some r →
           r.1.hasTerminated = false) ∧
        (pl ≠ [] → (SoAction.applyPathList bT eT s pl b).1.hasTerminated = false) ∧
        SoAction.applyPathList bT eT s [] b = (s, []) := by
  intro bT eT hB hE s root p pl b
  refine ⟨?_, fun r h => ?_, fun hpl => ?_, rfl⟩
  · cases root with
    | none => rfl
    | some r => exact hE _ _ (hB _ _ rfl)
  · simp only [SoAction.applyPath, Option.some.injEq] at h
    subst h
    by_cases hc : 0 < p.getFullLength ∧ (p.getNode 0).isSome
    · simpa [SoAction.hasTerminated, hc] using hE _ _ (hB _ _ rfl)
    · simp [SoAction.hasTerminated, hc]
  · cases pl with
    | nil => exact absurd rfl hpl
    | cons p0 rest =>
      cases b with
      | true => exact hE _ _ (hB _ _ rfl)
      | false =>
        show (SoAction.applyPathList bT eT s (p0 :: rest) false).1.terminated = false
        simp only [SoAction.applyPathList]
        cases hu : uniquify (sortPaths (p0 :: rest)) with
        | nil => rfl
        | cons q0 qs =>
          by_cases hh : q0.getHead = (qs.getLastD q0).getHead
          · simp only [if_pos hh]
            exact hE _ _ (hB _ _ rfl)
          · simp only [if_neg hh]
            exact multiHeadLoop_preserves_not_terminated bT _ hB _ _ rfl

/-- The result of a concrete apply-to-path, for the C5 witness. -/
def c5res : SoAction × List Call :=
  (SoAction.applyPath idTrav idTrav exTerm (some pLong)).getD (exTerm, [])

/-- Witness for C5 (amended) at concrete applies. -/
theorem c5_witness :
    (SoAction.applyNode idTrav idTrav exTerm (some nG0)).1.hasTerminated = false ∧
    ([pHead] ≠ ([] : List SoPath)) ∧
    (SoAction.applyPathList idTrav idTrav exTerm [pHead] false).1.hasTerminated = false ∧
    SoAction.applyPath idTrav idTrav exTerm (some pLong) = some c5res ∧
    c5res.1.hasTerminated = false :=
  ⟨(c5_amended_terminated_cleared idTrav idTrav (fun _ _ h => h) (fun _ _ h => h)
      exTerm (some nG0) pLong [pHead] false).1,
   by decide,
   (c5_amended_terminated_cleared idTrav idTrav (fun _ _ h => h) (fun _ _ h => h)
      exTerm (some nG0) pLong [pHead] false).2.2.1 (by decide),
   by decide,
   (c5_amended_terminated_cleared idTrav idTrav (fun _ _ h => h) (fun _ _ h => h)
      exTerm (some nG0) pLong [pHead] false).2.1 c5res (by decide)⟩

/-- Full length of a path with a head and an explicit step list. -/
theorem SoPath.getFullLength_some (n : SoNode) (l : List (Option SoNode × Int)) :
    (SoPath.mk (some n) l).getFullLength = l.length + 1 := by
  simp [SoPath.getFullLength, Nat.add_comm]

/-- Running `followPath` over a concatenation splits into two runs. -/
theorem followPath_append (l1 l2 : List (Option SoNode × Int)) :
    ∀ s : SoAction, followPath s (l1 ++ l2) =
      (followPath s l1).bind (fun s' => followPath s' l2) := by
  induction l1 with
  | nil => intro s; rfl
  | cons a rest ih =>
    intro s
    obtain ⟨n, i⟩ := a
    simp only [List.cons_append, followPath]
    cases s.pushCurPath i n with
    | none => rfl
    | some s1 => simpa using ih s1

/-- Following the applied path's own steps from the seeded state keeps the
code `IN_PATH` strictly above the tail and turns it `BELOW_PATH` exactly at
the tail. -/
theorem c1_follow_on_path (hN : SoNode) (steps : List (Option SoNode × Int)) :
    ∀ (d : Nat), d ≤ steps.length →
    ∀ s : SoAction,
      s.appliedcode = .PATH →
      s.applieddata = .path (some ⟨some hN, steps⟩) →
      s.currentpath = ⟨some hN, []⟩ →
      s.currentpathcode = seedCode ⟨some hN, steps⟩ →
      ∃ s', followPath s (steps.take d) = some s' ∧
        s'.appliedcode = .PATH ∧
        s'.applieddata = .path (some ⟨some hN, steps⟩) ∧
        s'.currentpath = ⟨some hN, steps.take d⟩ ∧
        s'.currentpathcode =
          (if d < steps.length then PathCode.IN_PATH else PathCode.BELOW_PATH) := by
  intro d
  induction d with
  | zero =>
    intro _ s h1 h2 h3 h4
    refine ⟨s, by simp [followPath], h1, h2, by simpa using h3, ?_⟩
    rw [h4, seedCode, SoPath.getFullLength_some]
    by_cases h0 : 0 < steps.length
    · rw [if_pos (by omega), if_pos h0]
    · rw [if_neg (by omega), if_neg h0]
  | succ d ih =>
    intro hd1 s h1 h2 h3 h4
    have hdlt : d < steps.length := hd1
    obtain ⟨sd, hfd, hc1, hc2, hc3, hc4⟩ := ih (Nat.le_of_lt hdlt) s h1 h2 h3 h4
    have hcpc : sd.currentpathcode = .IN_PATH := by rw [hc4, if_pos hdlt]
    have htake : steps.take (d+1) = steps.take d ++ [steps[d]] := by
      rw [List.take_succ, List.getElem?_eq_getElem hdlt]; rfl
    have hlentake : (steps.take d).length = d := by
      simp [List.length_take]; omega
    rw [htake, followPath_append, hfd]
    cases hpr : steps[d] with
    | mk nd idx =>
      have hget : (steps.take d ++ [(nd, idx)])[d]? = some (nd, idx) := by
        rw [List.getElem?_append]
        simp [hlentake]
      have hgets : steps[d]? = some (nd, idx) := by
        rw [List.getElem?_eq_getElem hdlt, hpr]
      have hidx1 : (SoPath.mk (some hN) (steps.take d ++ [(nd, idx)])).getIndex (d + 1) = idx := by
        simp [SoPath.getIndex, hget]
      have hidx2 : (SoPath.mk (some hN) steps).getIndex (d + 1) = idx := by
        simp [SoPath.getIndex, hgets]
      have hculen : (SoPath.mk (some hN) (steps.take d ++ [(nd, idx)])).getFullLength = d + 2 := by
        rw [SoPath.getFullLength_some]
        simp [hlentake]
      have hplen : (SoPath.mk (some hN) steps).getFullLength = steps.length + 1 :=
        SoPath.getFullLength_some hN steps
      have happ : sd.currentpath.append nd idx
          = SoPath.mk (some hN) (steps.take d ++ [(nd, idx)]) := by
        rw [hc3]; rfl
      have e1 : d + 2 - 1 = d + 1 := by omega
      have hpush : sd.pushCurPath idx nd = some { sd with
          currentpath := ⟨some hN, steps.take d ++ [(nd, idx)]⟩,
          currentpathcode :=
            if d + 1 < steps.length then PathCode.IN_PATH else PathCode.BELOW_PATH } := by
        simp only [SoAction.pushCurPath, hcpc, hc1, hc2, if_true, happ, hculen, hplen,
          e1, hidx1, hidx2]
        rw [if_neg (by simp)]
        by_cases hfin : d + 1 = steps.length
        · rw [if_pos (by omega), if_neg (by omega)]
        · rw [if_neg (by omega), if_pos (by omega)]
      refine ⟨{ sd with currentpath := ⟨some hN, steps.take d ++ [(nd, idx)]⟩, currentpathcode := if d + 1 < steps.length then PathCode.IN_PATH else PathCode.BELOW_PATH }, ?_, ?_, ?_, ?_, ?_⟩
      · simp only [Option.some_bind, followPath]
        rw [hpush]
        simp
      · exact hc1
      · exact hc2
      · rfl
      · rfl

/-- C1: in the apply-to-path case, `pushCurPath(childIndex, child)` from an
`IN_PATH` state appends the child to the current path and then, with
`curlen` the current path's new full length, goes `OFF_PATH` when the new
index disagrees with the applied path at position `curlen - 1`, goes
`BELOW_PATH` when `curlen` reaches the applied path's full length, and
stays `IN_PATH` otherwise; consequently, following the applied path's own
steps the code is `IN_PATH` strictly above the tail and `BELOW_PATH` at
the tail, and from an `OFF_PATH` state every further push stays
`OFF_PATH`. -/
theorem c1_pushCurPath_path_state_machine :
    (∀ (s : SoAction) (p : SoPath) (childindex : Int) (child : SoNode),
       s.currentpathcode = .IN_PATH →
       s.appliedcode = .PATH →
       s.applieddata = .path (some p) →
       s.pushCurPath childindex (some child) =
         some { s with
           currentpath := s.currentpath.append (some child) childindex,
           currentpathcode :=
             if (s.currentpath.append (some child) childindex).getIndex
                  ((s.currentpath.append (some child) childindex).getFullLength - 1) ≠
                p.getIndex ((s.currentpath.append (some child) childindex).getFullLength - 1)
             then PathCode.OFF_PATH
             else if (s.currentpath.append (some child) childindex).getFullLength =
                p.getFullLength
             then PathCode.BELOW_PATH
             else PathCode.IN_PATH }) ∧
    (∀ (hN : SoNode) (steps : List (Option SoNode × Int)) (d : Nat) (s : SoAction),
       d ≤ steps.length →
       s.appliedcode = .PATH →
       s.applieddata = .path (some ⟨some hN, steps⟩) →
       s.currentpath = ⟨some hN, []⟩ →
       s.currentpathcode = seedCode ⟨some hN, steps⟩ →
       ∃ s', followPath s (steps.take d) = some s' ∧
         s'.currentpath = ⟨some hN, steps.take d⟩ ∧
         s'.currentpathcode =
           (if d < steps.length then PathCode.IN_PATH else PathCode.BELOW_PATH)) ∧
    (∀ (s : SoAction) (childindex : Int) (node : Option SoNode),
       s.currentpathcode = .OFF_PATH →
       s.pushCurPath childindex node =
         some { s with currentpath := s.currentpath.append node childindex }) := by
  refine ⟨fun s p childindex child h1 h2 h3 => ?_,
          fun hN steps d s hd h1 h2 h3 h4 => ?_,
          fun s childindex node h1 => ?_⟩
  · simp [SoAction.pushCurPath, h1, h2, h3]
  · obtain ⟨s', hf, _, _, hcp, hcode⟩ := c1_follow_on_path hN steps d hd s h1 h2 h3 h4
    exact ⟨s', hf, hcp, hcode⟩
  · simp [SoAction.pushCurPath, h1]

/-- A deeper concrete applied path `nG0 -> nA -> nB`. -/
def pDeep : SoPath := ⟨some nG0, [(some nA, 0), (some nB, 1)]⟩

/-- A concrete action state applied to `pDeep`, seeded at its head. -/
def sInPath : SoAction :=
  ⟨.PATH, .path (some pDeep), SoPath.setHead (some nG0), false, .IN_PATH⟩

/-- The same state with the path code already `OFF_PATH`. -/
def sOffPath : SoAction := { sInPath with currentpathcode := .OFF_PATH }

/-- Witness for C1 at concrete states. -/
theorem c1_witness :
    (sInPath.pushCurPath 0 (some nA) =
      some { sInPath with
        currentpath := sInPath.currentpath.append (some nA) 0,
        currentpathcode :=
          if (sInPath.currentpath.append (some nA) 0).getIndex
               ((sInPath.currentpath.append (some nA) 0).getFullLength - 1) ≠
             pDeep.getIndex ((sInPath.currentpath.append (some nA) 0).getFullLength - 1)
          then PathCode.OFF_PATH
          else if (sInPath.currentpath.append (some nA) 0).getFullLength =
             pDeep.getFullLength
          then PathCode.BELOW_PATH
          else PathCode.IN_PATH }) ∧
    (∃ s', followPath sInPath (pDeep.steps.take 2) = some s' ∧
       s'.currentpath = ⟨some nG0, pDeep.steps.take 2⟩ ∧
       s'.currentpathcode =
         (if 2 < pDeep.steps.length then PathCode.IN_PATH else PathCode.BELOW_PATH)) ∧
    (sOffPath.pushCurPath 5 (some nB) =
      some { sOffPath with currentpath := sOffPath.currentpath.append (some nB) 5 }) :=
  ⟨c1_pushCurPath_path_state_machine.1 sInPath pDeep 0 nA rfl rfl rfl,
   c1_pushCurPath_path_state_machine.2.1 nG0 pDeep.steps 2 sInPath (by decide)
     rfl rfl rfl (by decide),
   c1_pushCurPath_path_state_machine.2.2 sOffPath 5 (some nB) rfl⟩

/-- The search loop in the pathlist branch of `pushCurPath` finds exactly
the first path that is long enough and contains the current path. -/
theorem findContainingLoop_eq_find (curlen : Nat) (cp : SoPath) :
    ∀ pl : List SoPath, findContainingLoop pl curlen cp =
      pl.find? (fun q => decide (curlen ≤ q.getFullLength) && q.containsPath cp) := by
  intro pl
  induction pl with
  | nil => rfl
  | cons q rest ih =>
    by_cases hc : curlen ≤ q.getFullLength ∧ q.containsPath cp = true
    · rw [findContainingLoop, if_pos hc,
        List.find?_cons_of_pos _ (by simp [hc.1, hc.2])]
    · rw [findContainingLoop, if_neg hc,
        List.find?_cons_of_neg _ (by simpa using hc), ih]

/-- C2: in the apply-to-pathlist case, `pushCurPath(childIndex, child)` from
an `IN_PATH` state appends the child and searches the applied pathlist for
the first path of full length at least `curlen` that contains the new
current path: no such path means `OFF_PATH`, a found path of full length
exactly `curlen` means `BELOW_PATH`, and otherwise the code stays
`IN_PATH`. -/
theorem c2_pushCurPath_pathlist :
    ∀ (s : SoAction) (pl opl : List SoPath) (childindex : Int) (child : SoNode),
      s.currentpathcode = .IN_PATH →
      s.appliedcode = .PATH_LIST →
      s.applieddata = .pathlist pl opl →
      s.pushCurPath childindex (some child) =
        some { s with
          currentpath := s.currentpath.append (some child) childindex,
          currentpathcode :=
            match pl.find? (fun q =>
                decide ((s.currentpath.append (some child) childindex).getFullLength ≤
                  q.getFullLength) &&
                q.containsPath (s.currentpath.append (some child) childindex)) with
            | none => PathCode.OFF_PATH
            | some q =>
              if q.getFullLength =
                  (s.currentpath.append (some child) childindex).getFullLength
              then PathCode.BELOW_PATH
              else PathCode.IN_PATH } := by
  intro s pl opl childindex child h1 h2 h3
  simp [SoAction.pushCurPath, h1, h2, h3, findContainingLoop_eq_find]

/-- A concrete action state applied to the pathlist `[pDeep]`, seeded at
its head. -/
def sListIn : SoAction :=
  ⟨.PATH_LIST, .pathlist [pDeep] [pDeep], SoPath.setHead (some nG0), false, .IN_PATH⟩

/-- Witness for C2 at a concrete state. -/
theorem c2_witness :
    sListIn.pushCurPath 0 (some nA) =
      some { sListIn with
        currentpath := sListIn.currentpath.append (some nA) 0,
        currentpathcode :=
          match [pDeep].find? (fun q =>
              decide ((sListIn.currentpath.append (some nA) 0).getFullLength ≤
                q.getFullLength) &&
              q.containsPath (sListIn.currentpath.append (some nA) 0)) with
          | none => PathCode.OFF_PATH
          | some q =>
            if q.getFullLength = (sListIn.currentpath.append (some nA) 0).getFullLength
            then PathCode.BELOW_PATH
            else PathCode.IN_PATH } :=
  c2_pushCurPath_pathlist sListIn [pDeep] [pDeep] 0 nA rfl rfl rfl

/-- C3 counterexample: for the pathlist `[pLong, pHead]` (same head, in
unsorted order) with `obeysRules = FALSE`, the normalized list is
`[pHead]`, whose first (and only) path has full length 1, yet the single
traversal over it runs with `currentPathCode = IN_PATH` — the seed was
taken from the original list's first path `pLong` (full length 2), not
from the first path of the list being traversed. -/
theorem c3_counterexample :
    (SoAction.applyPathList idTrav idTrav exAction [pLong, pHead] false).2.length = 1 ∧
    uniquify (sortPaths [pLong, pHead]) = [pHead] ∧
    (((SoAction.applyPathList idTrav idTrav exAction [pLong, pHead] false).2.getLastD
        ⟨none, exAction⟩).state.getPathListAppliedTo = some [pHead]) ∧
    pHead.getFullLength = 1 ∧
    (((SoAction.applyPathList idTrav idTrav exAction [pLong, pHead] false).2.getLastD
        ⟨none, exAction⟩).state.currentpathcode = PathCode.IN_PATH) ∧
    PathCode.IN_PATH ≠ PathCode.BELOW_PATH := by decide

/-- Every traversal started by the per-head-group loop is configured with a
nonempty group as applied pathlist, the group's first path's seed code, and
the group's head node. -/
theorem multiHeadLoop_calls (bT : Trav) (orig : List SoPath) :
    ∀ (l : List SoPath) (s : SoAction) (c : Call),
      c ∈ (SoAction.multiHeadLoop bT orig s l).2 →
      ∃ g gs', c.state.applieddata = .pathlist (g :: gs') orig ∧
        c.state.currentpathcode = seedCode g ∧ c.node = g.getHead := by
  have main : ∀ (bound : Nat) (l : List SoPath) (s : SoAction) (c : Call),
      c ∈ (SoAction.multiHeadLoopGo bT orig bound s l).2 →
      ∃ g gs', c.state.applieddata = .pathlist (g :: gs') orig ∧
        c.state.currentpathcode = seedCode g ∧ c.node = g.getHead := by
    intro bound
    induction bound with
    | zero =>
      intro l s c hc
      cases l <;> simp [SoAction.multiHeadLoopGo] at hc
    | succ k ih =>
      intro l s c hc
      cases l with
      | nil => simp [SoAction.multiHeadLoopGo] at hc
      | cons p rest =>
        rw [SoAction.multiHeadLoopGo] at hc
        by_cases hterm : s.terminated = true
        · simp [hterm] at hc
        · simp only [hterm, Bool.false_eq_true, if_false] at hc
          rcases List.mem_cons.mp hc with hceq | hcrec
          · subst hceq
            exact ⟨p, _, rfl, rfl, rfl⟩
          · exact ih _ _ _ hcrec
  exact fun l => main l.length l

/-- C3 amended: apply-to-path seeds the path code from the applied path;
apply-to-pathlist seeds it from the applied (original) list's first path,
both for an obeys-rules traversal and for the cloned single-head
traversal — even when normalization changed the first path — while each
per-head group of a multi-head traversal re-seeds from that group's first
path (`IN_PATH` iff the respective path's full length exceeds 1). -/
theorem c3_amended_seed_codes :
    (∀ (bT eT : Trav) (s : SoAction) (p : SoPath) (r : SoAction × List Call),
       SoAction.applyPath bT eT s (some p) = some r →
       ∀ c ∈ r.2, c.state.currentpathcode = seedCode p) ∧
    (∀ (bT eT : Trav) (s : SoAction) (p0 : SoPath) (rest : List SoPath),
       ∀ c ∈ (SoAction.applyPathList bT eT s (p0 :: rest) true).2,
         c.state.currentpathcode = seedCode p0) ∧
    (∀ (bT eT : Trav) (s : SoAction) (p0 : SoPath) (rest : List SoPath)
       (q0 : SoPath) (qs : List SoPath),
       uniquify (sortPaths (p0 :: rest)) = q0 :: qs →
       q0.getHead = (qs.getLastD q0).getHead →
       ∀ c ∈ (SoAction.applyPathList bT eT s (p0 :: rest) false).2,
         c.state.currentpathcode = seedCode p0) ∧
    (∀ (bT eT : Trav) (s : SoAction) (p0 : SoPath) (rest : List SoPath)
       (q0 : SoPath) (qs : List SoPath),
       uniquify (sortPaths (p0 :: rest)) = q0 :: qs →
       q0.getHead ≠ (qs.getLastD q0).getHead →
       ∀ c ∈ (SoAction.applyPathList bT eT s (p0 :: rest) false).2,
         ∃ g gs', c.state.applieddata = .pathlist (g :: gs') (p0 :: rest) ∧
           c.state.currentpathcode = seedCode g ∧ c.node = g.getHead) := by
  refine ⟨fun bT eT s p r h c hc => ?_, fun bT eT s p0 rest c hc => ?_,
          fun bT eT s p0 rest q0 qs hnorm hh c hc => ?_,
          fun bT eT s p0 rest q0 qs hnorm hh c hc => ?_⟩
  · simp only [SoAction.applyPath, Option.some.injEq] at h
    subst h
    by_cases hcond : 0 < p.getFullLength ∧ (p.getNode 0).isSome
    · rw [if_pos hcond] at hc
      simp at hc
      subst hc
      rfl
    · rw [if_neg hcond] at hc
      simp at hc
  · simp only [SoAction.applyPathList, if_true] at hc
    simp at hc
    subst hc
    rfl
  · simp only [SoAction.applyPathList] at hc
    rw [hnorm] at hc
    simp only [if_pos hh] at hc
    simp at hc
    subst hc
    rfl
  · simp only [SoAction.applyPathList] at hc
    rw [hnorm] at hc
    simp only [if_neg hh] at hc
    exact multiHeadLoop_calls bT (p0 :: rest) (q0 :: qs) _ c hc

/-- The single traversal call of the C3 counterexample input. -/
def c3call : Call :=
  (SoAction.applyPathList idTrav idTrav exAction [pLong, pHead] false).2.getLastD
    ⟨none, exAction⟩

/-- Witness for C3 (amended) at the counterexample input. -/
theorem c3_witness :
    uniquify (sortPaths [pLong, pHead]) = [pHead] ∧
    pHead.getHead = (([] : List SoPath).getLastD pHead).getHead ∧
    c3call ∈ (SoAction.applyPathList idTrav idTrav exAction [pLong, pHead] false).2 ∧
    c3call.state.currentpathcode = seedCode pLong :=
  ⟨by decide, rfl, by decide,
   c3_amended_seed_codes.2.2.1 idTrav idTrav exAction pLong [pHead] pHead []
     (by decide) rfl c3call (by decide)⟩

/-- The collection loop of `usePathCode` is adjacent-duplicate removal over
the indices of the containing paths. -/
theorem collectLoop_eq_destutterAux (curlen : Nat) (cp : SoPath) :
    ∀ (pl : List SoPath) (prev : Int),
      collectLoop pl curlen cp prev = destutterAux (mappedIndices pl curlen cp) prev := by
  intro pl
  induction pl with
  | nil => intro prev; rfl
  | cons q rest ih =>
    intro prev
    by_cases hc : curlen < q.getFullLength ∧ q.containsPath cp = true
    · have hfil : mappedIndices (q :: rest) curlen cp =
          q.getIndex curlen :: mappedIndices rest curlen cp := by
        simp [mappedIndices, List.filter_cons, hc]
      simp only [collectLoop, if_pos hc, hfil, destutterAux]
      by_cases hi : q.getIndex curlen ≠ prev
      · rw [if_pos hi, if_pos hi, ih]
      · rw [if_neg hi, if_neg hi, ih]
    · have hfil : mappedIndices (q :: rest) curlen cp = mappedIndices rest curlen cp := by
        simp [mappedIndices, List.filter_cons, hc]
      simp only [collectLoop, if_neg hc, hfil, ih]

/-- Adjacent-duplicate removal yields a sublist. -/
theorem destutterAux_sublist : ∀ (l : List Int) (prev : Int),
    List.Sublist (destutterAux l prev) l := by
  intro l
  induction l with
  | nil => intro prev; exact List.Sublist.refl []
  | cons a rest ih =>
    intro prev
    rw [destutterAux]
    by_cases h : a ≠ prev
    · rw [if_pos h]; exact List.Sublist.cons₂ a (ih a)
    · rw [if_neg h]; exact List.Sublist.cons a (ih prev)

/-- Every element survives adjacent-duplicate removal, except possibly the
value of the previously emitted index. -/
theorem destutterAux_mem : ∀ (l : List Int) (prev x : Int), x ∈ l →
    x ∈ destutterAux l prev ∨ x = prev := by
  intro l
  induction l with
  | nil => intro prev x hx; simp at hx
  | cons a rest ih =>
    intro prev x hx
    rw [destutterAux]
    by_cases h : a ≠ prev
    · rw [if_pos h]
      rcases List.mem_cons.mp hx with rfl | hxr
      · exact Or.inl (List.mem_cons_self _ _)
      · rcases ih a x hxr with hin | rfl
        · exact Or.inl (List.mem_cons_of_mem _ hin)
        · exact Or.inl (List.mem_cons_self _ _)
    · rw [if_neg h]
      push_neg at h
      rcases List.mem_cons.mp hx with rfl | hxr
      · exact Or.inr h
      · exact ih prev x hxr

/-- On a sorted index list whose elements dominate the previously emitted
index, adjacent-duplicate removal emits a strictly increasing chain. -/
theorem destutterAux_chain : ∀ (l : List Int), l.Sorted (· ≤ ·) →
    ∀ prev : Int, (∀ x ∈ l, prev ≤ x) →
    List.Chain (· < ·) prev (destutterAux l prev) := by
  intro l
  induction l with
  | nil => intro _ prev _; exact List.Chain.nil
  | cons a rest ih =>
    intro hs prev hp
    have hs' : rest.Sorted (· ≤ ·) := (List.sorted_cons.mp hs).2
    have hall : ∀ x ∈ rest, a ≤ x := (List.sorted_cons.mp hs).1
    rw [destutterAux]
    by_cases h : a ≠ prev
    · rw [if_pos h]
      have hpa : prev < a :=
        lt_of_le_of_ne (hp a (List.mem_cons_self _ _)) (Ne.symm h)
      exact List.Chain.cons hpa (ih hs' a hall)
    · rw [if_neg h]
      push_neg at h
      exact ih hs' prev (fun x hx => h ▸ hall x hx)

/-- On a sorted index list the emitted indices are duplicate-free. -/
theorem destutterAux_nodup (l : List Int) (hs : l.Sorted (· ≤ ·)) (prev : Int)
    (hp : ∀ x ∈ l, prev ≤ x) : (destutterAux l prev).Nodup := by
  have hpw : (prev :: destutterAux l prev).Pairwise (· < ·) :=
    List.chain_iff_pairwise.mp (destutterAux_chain l hs prev hp)
  exact (List.pairwise_cons.mp hpw).2.imp (fun h => ne_of_lt h)

/-- C8: `getPathCode` returns the current path code and writes the index
output only when that code is `IN_PATH`; then, for apply-to-path it yields
the single index of the applied path at the current depth, and for
apply-to-pathlist (with the rule-obeying sorted index sequence) it yields
the deduplicated, order-preserving sequence of `getIndex(curlen)` over the
applied paths longer than `curlen` that contain the current path. -/
theorem c8_getPathCode_indices :
    (∀ s : SoAction, s.currentpathcode ≠ .IN_PATH →
       s.getPathCode = some (s.currentpathcode, none)) ∧
    (∀ (s : SoAction) (p : SoPath),
       s.currentpathcode = .IN_PATH →
       s.appliedcode = .PATH →
       s.applieddata = .path (some p) →
       s.getPathCode =
         some (.IN_PATH, some [p.getIndex s.currentpath.getFullLength])) ∧
    (∀ (s : SoAction) (pl opl : List SoPath),
       s.currentpathcode = .IN_PATH →
       s.appliedcode = .PATH_LIST →
       s.applieddata = .pathlist pl opl →
       (mappedIndices pl s.currentpath.getFullLength s.currentpath).Sorted (· ≤ ·) →
       (∀ i ∈ mappedIndices pl s.currentpath.getFullLength s.currentpath, 0 ≤ i) →
       ∃ out, s.getPathCode = some (.IN_PATH, some out) ∧
         out.Nodup ∧
         List.Sublist out (mappedIndices pl s.currentpath.getFullLength s.currentpath) ∧
         ∀ i ∈ mappedIndices pl s.currentpath.getFullLength s.currentpath, i ∈ out) := by
  refine ⟨fun s h => ?_, fun s p h1 h2 h3 => ?_, fun s pl opl h1 h2 h3 hsort hnn => ?_⟩
  · simp [SoAction.getPathCode, h]
  · simp [SoAction.getPathCode, SoAction.usePathCode, h1, h2, h3]
  · have hprev : ∀ x ∈ mappedIndices pl s.currentpath.getFullLength s.currentpath,
        (-1 : Int) ≤ x := fun x hx => le_trans (by norm_num) (hnn x hx)
    refine ⟨collectLoop pl s.currentpath.getFullLength s.currentpath (-1), ?_, ?_, ?_, ?_⟩
    · simp [SoAction.getPathCode, SoAction.usePathCode, h1, h2, h3]
    · rw [collectLoop_eq_destutterAux]
      exact destutterAux_nodup _ hsort _ hprev
    · rw [collectLoop_eq_destutterAux]
      exact destutterAux_sublist _ _
    · intro i hi
      rw [collectLoop_eq_destutterAux]
      rcases destutterAux_mem _ (-1) i hi with hin | heq
      · exact hin
      · exact absurd (heq ▸ hnn i hi) (by norm_num)

/-- A second concrete path `nG0 -> nB` (child index 1). -/
def pLong2 : SoPath := ⟨some nG0, [(some nB, 1)]⟩

/-- A concrete state applied to the two-path list, seeded at the head. -/
def sUse : SoAction :=
  ⟨.PATH_LIST, .pathlist [pDeep, pLong2] [pDeep, pLong2],
   SoPath.setHead (some nG0), false, .IN_PATH⟩

/-- Witness for C8 at a concrete pathlist state. -/
theorem c8_witness :
    (mappedIndices [pDeep, pLong2] sUse.currentpath.getFullLength
        sUse.currentpath).Sorted (· ≤ ·) ∧
    (∀ i ∈ mappedIndices [pDeep, pLong2] sUse.currentpath.getFullLength
        sUse.currentpath, 0 ≤ i) ∧
    ∃ out, sUse.getPathCode = some (.IN_PATH, some out) ∧
      out.Nodup ∧
      List.Sublist out (mappedIndices [pDeep, pLong2]
        sUse.currentpath.getFullLength sUse.currentpath) ∧
      ∀ i ∈ mappedIndices [pDeep, pLong2] sUse.currentpath.getFullLength
          sUse.currentpath, i ∈ out :=
  ⟨by decide, by decide,
   c8_getPathCode_indices.2.2 sUse [pDeep, pLong2] [pDeep, pLong2]
     rfl rfl rfl (by decide) (by decide)⟩

/-- Head-identity ordering used to reason about sorted path lists. -/
def headLe (p q : SoPath) : Prop :=
  headKey p.getHead ≤ headKey q.getHead

/-- The lexicographic index comparison is total. -/
theorem intListLe_total : ∀ a b : List Int, intListLe a b = true ∨ intListLe b a = true := by
  intro a
  induction a with
  | nil => intro b; exact Or.inl rfl
  | cons x as ih =>
    intro b
    cases b with
    | nil => exact Or.inr rfl
    | cons y bs =>
      rcases lt_trichotomy x y with h | h | h
      · left; simp [intListLe, h]
      · subst h
        rcases ih bs with h2 | h2
        · left; simp [intListLe, lt_irrefl, h2]
        · right; simp [intListLe, lt_irrefl, h2]
      · right; simp [intListLe, h]

/-- The path ordering is total. -/
theorem pathLe_total : ∀ p q : SoPath, pathLe p q = true ∨ pathLe q p = true := by
  intro p q
  rcases lt_trichotomy (headKey p.getHead) (headKey q.getHead) with h | h | h
  · left; simp [pathLe, h]
  · rcases intListLe_total p.indices q.indices with h2 | h2
    · left; simp [pathLe, h, lt_irrefl, h2]
    · right; simp [pathLe, h, lt_irrefl, h2]
  · right; simp [pathLe, h]

/-- The path ordering refines the head-identity ordering. -/
theorem pathLe_headKey_le (p q : SoPath) (h : pathLe p q = true) : headLe p q := by
  by_cases h1 : headKey p.getHead < headKey q.getHead
  · exact le_of_lt h1
  · by_cases h2 : headKey q.getHead < headKey p.getHead
    · rw [pathLe, if_neg h1, if_pos h2] at h
      exact absurd h (by simp)
    · exact le_of_not_lt h2

/-- Membership through the insertion step of the sort. -/
theorem mem_insertPath : ∀ (l : List SoPath) (p x : SoPath),
    x ∈ insertPath p l ↔ x = p ∨ x ∈ l := by
  intro l
  induction l with
  | nil => intro p x; simp [insertPath]
  | cons q rest ih =>
    intro p x
    rw [insertPath]
    by_cases h : pathLe p q = true
    · rw [if_pos h]
      simp only [List.mem_cons]
    · rw [if_neg h]
      simp only [List.mem_cons, ih]
      tauto

/-- Insertion preserves head-identity sortedness. -/
theorem insertPath_sorted (p : SoPath) : ∀ l : List SoPath,
    l.Sorted headLe → (insertPath p l).Sorted headLe := by
  intro l
  induction l with
  | nil => intro _; simp [insertPath]
  | cons q rest ih =>
    intro hs
    rw [insertPath]
    by_cases h : pathLe p q = true
    · rw [if_pos h]
      refine List.sorted_cons.mpr ⟨?_, hs⟩
      intro b hb
      rcases List.mem_cons.mp hb with rfl | hbr
      · exact pathLe_headKey_le p b h
      · exact le_trans (pathLe_headKey_le p q h) ((List.sorted_cons.mp hs).1 b hbr)
    · rw [if_neg h]
      have hqp : pathLe q p = true := (pathLe_total p q).resolve_left h
      refine List.sorted_cons.mpr ⟨?_, ih (List.sorted_cons.mp hs).2⟩
      intro b hb
      rcases (mem_insertPath rest p b).mp hb with rfl | hbr
      · exact pathLe_headKey_le q b hqp
      · exact (List.sorted_cons.mp hs).1 b hbr

/-- The modelled sort produces a head-identity sorted list. -/
theorem sortPaths_sorted : ∀ l : List SoPath, (sortPaths l).Sorted headLe := by
  intro l
  induction l with
  | nil => simp [sortPaths]
  | cons p rest ih => exact insertPath_sorted p (sortPaths rest) ih

/-- The uniquify scan removes elements in place. -/
theorem uniquifyScan_sublist : ∀ (l : List SoPath) (prev : SoPath),
    List.Sublist (uniquifyScan prev l) l := by
  intro l
  induction l with
  | nil => intro prev; exact List.Sublist.refl []
  | cons q rest ih =>
    intro prev
    rw [uniquifyScan]
    by_cases h : q.containsPath prev = true
    · rw [if_pos h]; exact List.Sublist.cons q (ih prev)
    · rw [if_neg h]; exact List.Sublist.cons₂ q (ih q)

/-- `uniquify` removes elements in place. -/
theorem uniquify_sublist : ∀ l : List SoPath, List.Sublist (uniquify l) l := by
  intro l
  cases l with
  | nil => exact List.Sublist.refl []
  | cons p rest => exact List.Sublist.cons₂ p (uniquifyScan_sublist rest p)

/-- The head-identity key is injective. -/
theorem headKey_inj : ∀ a b : Option SoNode, headKey a = headKey b → a = b := by
  intro a b h
  cases a with
  | none =>
    cases b with
    | none => rfl
    | some nb => simp [headKey] at h
  | some na =>
    cases b with
    | none => simp [headKey] at h
    | some nb =>
      simp [headKey] at h
      cases na; cases nb
      simp at h
      simp [h]

/-- In a head-sorted list every element's head key is bounded by the last
element's. -/
theorem sorted_headLe_getLastD : ∀ (qs : List SoPath) (q0 : SoPath),
    (q0 :: qs).Sorted headLe → ∀ r ∈ q0 :: qs, headLe r (qs.getLastD q0) := by
  intro qs
  induction qs with
  | nil =>
    intro q0 _ r hr
    rcases List.mem_singleton.mp hr with rfl
    exact le_refl _
  | cons q1 qs' ih =>
    intro q0 hs r hr
    have hs' : (q1 :: qs').Sorted headLe := (List.sorted_cons.mp hs).2
    rw [List.getLastD_cons]
    rcases List.mem_cons.mp hr with rfl | hr'
    · exact le_trans ((List.sorted_cons.mp hs).1 q1 (List.mem_cons_self _ _))
        (ih q1 hs' q1 (List.mem_cons_self _ _))
    · exact ih q1 hs' r hr'

/-- In a head-sorted list whose first and last heads agree, all heads
agree. -/
theorem sorted_head_all_eq (q0 : SoPath) (qs : List SoPath)
    (hs : (q0 :: qs).Sorted headLe)
    (hfl : q0.getHead = (qs.getLastD q0).getHead) :
    ∀ r ∈ q0 :: qs, r.getHead = q0.getHead := by
  intro r hr
  have h1 : headLe q0 r := by
    rcases List.mem_cons.mp hr with rfl | hr'
    · exact le_refl _
    · exact (List.sorted_cons.mp hs).1 r hr'
  have h2 : headLe r (qs.getLastD q0) := sorted_headLe_getLastD qs q0 hs r hr
  have hkey : headKey r.getHead = headKey q0.getHead := by
    have : headKey (qs.getLastD q0).getHead = headKey q0.getHead := by rw [hfl]
    have h2' := le_trans h2 (le_of_eq this)
    exact le_antisymm h2' h1
  exact headKey_inj _ _ hkey

/-- The source per-head-group loop computes exactly the spec-side run over
the consecutive head groups. -/
theorem multiHeadLoopGo_eq_runHeadGroups (bT : Trav) (orig : List SoPath) :
    ∀ (bound : Nat) (l : List SoPath) (s : SoAction),
      SoAction.multiHeadLoopGo bT orig bound s l =
        runHeadGroups bT orig s (headGroupsGo bound l) := by
  intro bound
  induction bound with
  | zero => intro l s; cases l <;> rfl
  | succ k ih =>
    intro l s
    cases l with
    | nil => rfl
    | cons p rest =>
      rw [SoAction.multiHeadLoopGo, headGroupsGo, runHeadGroups.eq_def]
      by_cases hterm : s.terminated = true
      · simp [hterm]
      · simp only [hterm, Bool.false_eq_true, if_false]
        rw [ih]

/-- Wrapper form of the loop-grouping equivalence. -/
theorem multiHeadLoop_eq_runHeadGroups (bT : Trav) (orig : List SoPath)
    (s : SoAction) (l : List SoPath) :
    SoAction.multiHeadLoop bT orig s l = runHeadGroups bT orig s (headGroups l) :=
  multiHeadLoopGo_eq_runHeadGroups bT orig l.length l s

/-- C7: with `obeysRules = FALSE` the kernel traverses over the cloned,
sorted and uniquified copy of the applied list; if all paths of that
normalized list share one head, a single traversal runs over that head with
the normalized list, otherwise one traversal runs per consecutive head
group, in sorted order, and no further head group is started once the
terminated flag is true. -/
theorem c7_pathlist_grouping :
    ∀ (bT eT : Trav) (s : SoAction) (p0 : SoPath) (rest : List SoPath)
      (q0 : SoPath) (qs : List SoPath),
      uniquify (sortPaths (p0 :: rest)) = q0 :: qs →
      ((∀ r ∈ q0 :: qs, r.getHead = q0.getHead) →
        SoAction.applyPathList bT eT s (p0 :: rest) false =
          (let σ : SoAction :=
            { appliedcode := .PATH_LIST,
              applieddata := .pathlist (q0 :: qs) (p0 :: rest),
              currentpath := SoPath.setHead q0.getHead,
              terminated := false,
              currentpathcode := seedCode p0 }
           ({ eT (bT σ q0.getHead) q0.getHead with
              appliedcode := s.appliedcode,
              currentpathcode := s.currentpathcode,
              applieddata := s.applieddata }, [⟨q0.getHead, σ⟩]))) ∧
      ((¬ ∀ r ∈ q0 :: qs, r.getHead = q0.getHead) →
        SoAction.applyPathList bT eT s (p0 :: rest) false =
          (let entry : SoAction :=
            { appliedcode := .PATH_LIST,
              applieddata := .pathlist (p0 :: rest) (p0 :: rest),
              currentpath := s.currentpath,
              terminated := false,
              currentpathcode := seedCode p0 }
           let r := runHeadGroups bT (p0 :: rest) entry (headGroups (q0 :: qs))
           ({ r.1 with appliedcode := s.appliedcode,
                       currentpathcode := s.currentpathcode,
                       applieddata := s.applieddata }, r.2))) ∧
      (∀ (σ : SoAction) (gs : List (List SoPath)), σ.terminated = true →
        runHeadGroups bT (p0 :: rest) σ gs = (σ, [])) := by
  intro bT eT s p0 rest q0 qs hnorm
  refine ⟨fun hall => ?_, fun hnall => ?_, fun σ gs hσ => ?_⟩
  · have hh : q0.getHead = (qs.getLastD q0).getHead :=
      (hall _ (List.getLastD_mem_cons qs q0)).symm
    simp only [SoAction.applyPathList]
    rw [hnorm]
    simp only [if_pos hh, Bool.false_eq_true, if_false]
  · have hsorted : (q0 :: qs).Sorted headLe := by
      have h1 := sortPaths_sorted (p0 :: rest)
      have h2 := uniquify_sublist (sortPaths (p0 :: rest))
      rw [hnorm] at h2
      exact List.Pairwise.sublist h2 h1
    have hh : ¬ q0.getHead = (qs.getLastD q0).getHead := by
      intro hfl
      exact hnall (sorted_head_all_eq q0 qs hsorted hfl)
    simp only [SoAction.applyPathList]
    rw [hnorm]
    simp only [if_neg hh, Bool.false_eq_true, if_false]
    rw [multiHeadLoop_eq_runHeadGroups]
  · cases gs with
    | nil => rfl
    | cons g gs' =>
      rw [runHeadGroups.eq_def]
      simp [hσ]

/-- A path with a different head node, for multi-head pathlists. -/
def pOther : SoPath := ⟨some nA, []⟩

/-- Witness for C7: a single-head normalized list, a two-head list, and the
termination cut, at concrete inputs. -/
theorem c7_witness :
    (uniquify (sortPaths [pLong, pHead]) = [pHead]) ∧
    (SoAction.applyPathList idTrav idTrav exAction [pLong, pHead] false =
      (let σ : SoAction :=
        { appliedcode := .PATH_LIST,
          applieddata := .pathlist [pHead] [pLong, pHead],
          currentpath := SoPath.setHead pHead.getHead,
          terminated := false,
          currentpathcode := seedCode pLong }
       ({ idTrav (idTrav σ pHead.getHead) pHead.getHead with
          appliedcode := exAction.appliedcode,
          currentpathcode := exAction.currentpathcode,
          applieddata := exAction.applieddata }, [⟨pHead.getHead, σ⟩]))) ∧
    (uniquify (sortPaths [pHead, pOther]) = [pHead, pOther]) ∧
    (SoAction.applyPathList idTrav idTrav exAction [pHead, pOther] false =
      (let entry : SoAction :=
        { appliedcode := .PATH_LIST,
          applieddata := .pathlist [pHead, pOther] [pHead, pOther],
          currentpath := exAction.currentpath,
          terminated := false,
          currentpathcode := seedCode pHead }
       let r := runHeadGroups idTrav [pHead, pOther] entry (headGroups [pHead, pOther])
       ({ r.1 with appliedcode := exAction.appliedcode,
                   currentpathcode := exAction.currentpathcode,
                   applieddata := exAction.applieddata }, r.2))) ∧
    (exTerm.terminated = true) ∧
    (runHeadGroups idTrav [pHead, pOther] exTerm [[pHead], [pOther]] = (exTerm, [])) :=
  ⟨by decide,
   (c7_pathlist_grouping idTrav idTrav exAction pLong [pHead] pHead []
     (by decide)).1 (by decide),
   by decide,
   (c7_pathlist_grouping idTrav idTrav exAction pHead [pOther] pHead [pOther]
     (by decide)).2.1 (by decide),
   rfl,
   (c7_pathlist_grouping idTrav idTrav exAction pHead [pOther] pHead [pOther]
     (by decide)).2.2 exTerm [[pHead], [pOther]] rfl⟩
